import Mathlib

/-!
Verification of the diff-with-starter core (src/src/artifact-component.tsx).

The archive extractor (`processZipFile`), submission grouper
(`processSubmissionsZip`, `processStudentSubmission`) and comparison
orchestrator (`generateDiffs`) are shallow embeddings of the TypeScript
source.  JavaScript string operations (`split`, `startsWith`, `endsWith`,
`includes`) are modelled at character level over `List Char`, and
JavaScript object semantics (insertion order, assignment overwriting in
place) are modelled by association lists.

The line-diff computation itself (`Diff.createPatch` /
`Diff.structuredPatch`) lives in the external `diff` npm package, whose
code is not part of this repository; those definitions are modelled from
the spec (section 4.3) and are marked as such in their doc comments.
-/

/-! ## Character-level string primitives (JavaScript semantics) -/

/-- JavaScript `String.prototype.split` with a single-character separator,
at character-list level.  Always returns at least one (possibly empty)
piece, e.g. `split '/' "a//b" = ["a", "", "b"]` and `split '/' "" = [""]`. -/
def splitCh (sep : Char) : List Char → List (List Char)
  | [] => [[]]
  | c :: cs =>
    let r := splitCh sep cs
    if c = sep then [] :: r
    else
      match r with
      | [] => [[c]]
      | h :: t => (c :: h) :: t

/-- Inverse of `splitCh`: join pieces with the separator (JavaScript
`Array.prototype.join`). -/
def joinCh (sep : Char) : List (List Char) → List Char
  | [] => []
  | [l] => l
  | l :: ls => l ++ sep :: joinCh sep ls

/-- JS `s.startsWith(pre)`. -/
def startsWithL (s pre : String) : Bool := pre.toList.isPrefixOf s.toList

/-- JS `s.endsWith(suf)`. -/
def endsWithL (s suf : String) : Bool := suf.toList.isSuffixOf s.toList

/-- Whether `sub` occurs as a contiguous run inside `cs`. -/
def infixOfL (sub : List Char) : List Char → Bool
  | [] => sub.isEmpty
  | c :: cs => sub.isPrefixOf (c :: cs) || infixOfL sub cs

/-- JS `s.includes(sub)`. -/
def includesL (s sub : String) : Bool := infixOfL sub.toList s.toList

/-- `path.split('/').pop() || path` from the source (lines 30, 55, 62):
the final path component after the last `/`, falling back to the whole
path when that component is empty (JS falsiness of `''`). -/
def normalizePath (p : String) : String :=
  let parts := splitCh '/' p.toList
  let last := parts.getLastD []
  if last = [] then p else String.mk last

/-- `path.split('_')[0]` from the source (line 78): the token before the
first `_` delimiter. -/
def firstToken (p : String) : String :=
  String.mk ((splitCh '_' p.toList).headD [])

/-! ## FileSet: JavaScript object semantics as an association list -/

/-- A mapping from normalized file path to decoded text content, in
JS-object key insertion order. -/
abbrev FileSet := List (String × String)

/-- JS property read `fs[k]` (first binding wins; keys are unique in any
set actually built by the code). -/
def fsFind (fs : FileSet) (k : String) : Option String :=
  (fs.find? (fun kv => kv.1 = k)).map (fun kv => kv.2)

/-- Whether the key is present. -/
def fsHas (fs : FileSet) (k : String) : Bool := fs.any (fun kv => kv.1 = k)

/-- JS property write `fs[k] = v`: overwrite in place when the key exists,
append otherwise. -/
def fsInsert (fs : FileSet) (k v : String) : FileSet :=
  if fsHas fs k then fs.map (fun kv => if kv.1 = k then (k, v) else kv)
  else fs ++ [(k, v)]

/-- The keys of a FileSet in order. -/
def fsKeys (fs : FileSet) : List String := fs.map (fun kv => kv.1)

/-- JS object spread `{ ...a, ...b }`: a's bindings first, then b's merged
in with overwrite-in-place semantics. -/
def fsMerge (a b : FileSet) : FileSet :=
  b.foldl (fun acc kv => fsInsert acc kv.1 kv.2) a

/-! ## Zip archive entries -/

/-- One entry of a zip archive as enumerated by `Object.entries(contents.files)`:
its path, whether it is a directory entry, its content decoded as text
(`zipEntry.async('string')`), and its content parsed as a nested archive
(`loadAsync`, used only when the entry name ends in `.zip`). -/
inductive ZEntry : Type where
  | mk (path : String) (dir : Bool) (text : String) (nested : List ZEntry)

def ZEntry.path : ZEntry → String
  | .mk p _ _ _ => p

def ZEntry.dir : ZEntry → Bool
  | .mk _ d _ _ => d

def ZEntry.text : ZEntry → String
  | .mk _ _ t _ => t

def ZEntry.nested : ZEntry → List ZEntry
  | .mk _ _ _ n => n

/-! ## Archive Extractor (`processZipFile`, source lines 17-41) -/

/-- The filter of `processZipFile` (source lines 25-27): keep non-directory
entries outside `__MACOSX/` whose path ends in `.py`. -/
def keepEntry (e : ZEntry) : Bool :=
  !e.dir && !(startsWithL e.path "__MACOSX/") && endsWithL e.path ".py"

/-- `processZipFile` (source lines 17-41): fold over the archive entries,
inserting each kept entry's text under its normalized key. -/
def processZipFile (entries : List ZEntry) : FileSet :=
  entries.foldl
    (fun files e =>
      if keepEntry e then fsInsert files (normalizePath e.path) e.text
      else files)
    []

/-- The step function of `processZipFile`, named for the proofs. -/
def zipStep (files : FileSet) (e : ZEntry) : FileSet :=
  if keepEntry e then fsInsert files (normalizePath e.path) e.text else files

/-! ## Submission Grouper (`processStudentSubmission` lines 43-67,
`processSubmissionsZip` lines 69-100) -/

/-- `processStudentSubmission` (source lines 43-67): a `.zip` entry is
opened as a nested archive and filtered like the Archive Extractor
(`!file.dir && path.endsWith('.py') && !path.startsWith('__MACOSX/')`,
line 53); a `.py` entry is inserted directly under its normalized name;
anything else yields no files. -/
def processStudentSubmission (e : ZEntry) : FileSet :=
  if endsWithL e.path ".zip" then
    e.nested.foldl
      (fun files f =>
        if !f.dir && endsWithL f.path ".py" && !(startsWithL f.path "__MACOSX/")
        then fsInsert files (normalizePath f.path) f.text
        else files)
      []
  else if endsWithL e.path ".py" then
    fsInsert [] (normalizePath e.path) e.text
  else []

/-- A SubmissionTable: SubmitterId to FileSet, in insertion order. -/
abbrev SubmissionTable := List (String × FileSet)

def tblHas (t : SubmissionTable) (k : String) : Bool :=
  t.any (fun kv => kv.1 = k)

/-- JS `submissions[studentName] = f(submissions[studentName])` for an
existing key: replace the value in place. -/
def tblUpdate (t : SubmissionTable) (k : String) (f : FileSet → FileSet) :
    SubmissionTable :=
  t.map (fun kv => if kv.1 = k then (k, f kv.2) else kv)

/-- `processSubmissionsZip` (source lines 69-100): consider entries whose
path contains `_assignsubmission_file/` and not `_onlinetext`; the
SubmitterId is the token before the first `_`; any qualifying
non-directory entry creates the submitter's (possibly empty) FileSet, and
`.py`/`.zip` entries have their extracted files spread-merged in. -/
def processSubmissionsZip (entries : List ZEntry) : SubmissionTable :=
  entries.foldl
    (fun submissions e =>
      if includesL e.path "_assignsubmission_file/" &&
          !(includesL e.path "_onlinetext") then
        let studentName := firstToken e.path
        if !e.dir then
          let submissions1 :=
            if tblHas submissions studentName then submissions
            else submissions ++ [(studentName, [])]
          if endsWithL e.path ".py" || endsWithL e.path ".zip" then
            tblUpdate submissions1 studentName
              (fun fs => fsMerge fs (processStudentSubmission e))
          else submissions1
        else submissions
      else submissions)
    []

/-- The step function of `processSubmissionsZip`, named for the proofs. -/
def subStep (submissions : SubmissionTable) (e : ZEntry) : SubmissionTable :=
  if includesL e.path "_assignsubmission_file/" &&
      !(includesL e.path "_onlinetext") then
    let studentName := firstToken e.path
    if !e.dir then
      let submissions1 :=
        if tblHas submissions studentName then submissions
        else submissions ++ [(studentName, [])]
      if endsWithL e.path ".py" || endsWithL e.path ".zip" then
        tblUpdate submissions1 studentName
          (fun fs => fsMerge fs (processStudentSubmission e))
      else submissions1
    else submissions
  else submissions

/-- The keys of a SubmissionTable in order. -/
def tblKeys (t : SubmissionTable) : List String := t.map (fun kv => kv.1)

/-- Whether an entry is considered by the grouper at all: inside a
`_assignsubmission_file/` folder, not an `_onlinetext` submission, and
not a directory (source lines 77-80). -/
def qualifiesEntry (e : ZEntry) : Bool :=
  includesL e.path "_assignsubmission_file/" &&
    !(includesL e.path "_onlinetext") && !e.dir

/-- The two-submitter archive of the C5 scenario, with the two file
contents left abstract. -/
def scenarioSubEntries (c1 c2 : String) : List ZEntry :=
  [ZEntry.mk "alice_12_assignsubmission_file/main.py" false c1 [],
   ZEntry.mk "bob_34_assignsubmission_file/sub.zip" false ""
     [ZEntry.mk "x.py" false c2 []]]

/-- The implicit key invariant of claim C10: a FileSet key is non-empty,
ends in `.py`, and contains no path separator. -/
def goodKey (k : String) : Prop :=
  k ≠ "" ∧ endsWithL k ".py" = true ∧ '/' ∉ k.toList

/-! ## Diff Engine

The functions below are NOT transcribed from src/: the source calls
`Diff.createPatch` and `Diff.structuredPatch` from the external `diff`
npm package, whose code is not part of this repository.  They are
modelled from the spec, section 4.3. -/

/-- Modelled from the spec: the per-line classification of a diff line
(context / added / removed), carrying its literal text.  The `diff`
library's hunk line representation is missing from src/. -/
inductive DLine : Type where
  | ctx (text : String)
  | add (text : String)
  | del (text : String)
deriving DecidableEq

/-- The text a diff line contributes to the baseline side. -/
def DLine.oldText : DLine → Option String
  | .ctx s => some s
  | .del s => some s
  | .add _ => none

/-- The text a diff line contributes to the candidate side. -/
def DLine.newText : DLine → Option String
  | .ctx s => some s
  | .add s => some s
  | .del _ => none

def DLine.isCtx : DLine → Bool
  | .ctx _ => true
  | _ => false

/-- The literal text a diff line carries, whatever its tag. -/
def dlineText : DLine → String
  | .ctx s => s
  | .add s => s
  | .del s => s

/-- Modelled from the spec: decompose a text blob into its lines for the
line-based diff (the `diff` library's tokenizer is missing from src/).
A trailing newline does not open an extra empty line; the empty text has
no lines. -/
def splitLines (s : String) : List String :=
  let parts := splitCh '\n' s.toList
  let parts2 := if parts.getLastD [] = [] then parts.dropLast else parts
  parts2.map String.mk

/-- Modelled from the spec: length of a longest common subsequence, used
to steer the LCS-style line diff (the `diff` library's algorithm is
missing from src/).  `fuel` bounds the recursion; `xs.length + ys.length`
is always enough. -/
def lcsLen : Nat → List String → List String → Nat
  | _, [], _ => 0
  | _, _, [] => 0
  | 0, _, _ => 0
  | fuel + 1, x :: xs, y :: ys =>
    if x = y then lcsLen fuel xs ys + 1
    else max (lcsLen fuel xs (y :: ys)) (lcsLen fuel (x :: xs) ys)

/-- Modelled from the spec: standard line-based LCS-style diff producing
an ordered edit script of context / added / removed lines, removals
preceding insertions at a replacement point (the `diff` library's
algorithm is missing from src/). -/
def lcsDiff : Nat → List String → List String → List DLine
  | _, [], ys => ys.map DLine.add
  | _, xs, [] => xs.map DLine.del
  | 0, xs, ys => xs.map DLine.del ++ ys.map DLine.add
  | fuel + 1, x :: xs, y :: ys =>
    if x = y then DLine.ctx x :: lcsDiff fuel xs ys
    else if lcsLen fuel (x :: xs) ys ≤ lcsLen fuel xs (y :: ys) then
      DLine.del x :: lcsDiff fuel xs (y :: ys)
    else
      DLine.add y :: lcsDiff fuel (x :: xs) ys

/-- Modelled from the spec: a contiguous change region with its 1-indexed
start line and line count in baseline and candidate coordinates and its
ordered tagged lines (the `diff` library's hunk record is missing from
src/). -/
structure Hunk : Type where
  oldStart : Nat
  oldLines : Nat
  newStart : Nat
  newLines : Nat
  lines : List DLine
deriving DecidableEq

/-- How many lines of the baseline a run of diff lines spans. -/
def oldCount (ls : List DLine) : Nat := (ls.filterMap DLine.oldText).length

/-- How many lines of the candidate a run of diff lines spans. -/
def newCount (ls : List DLine) : Nat := (ls.filterMap DLine.newText).length

/-- Modelled from the spec: the fixed number of context lines kept on each
flank of a hunk (an implementation choice per spec section 9; the `diff`
library's default is used). -/
def diffContext : Nat := 4

/-- Modelled from the spec: collect the body of one hunk from an edit
script that starts at a change.  Consumes alternating change runs and
interior context runs while the context run is short enough
(`≤ 2 * diffContext`) and another change follows; returns the body and
the remaining script.  `fuel` bounds the recursion; `s.length` is always
enough.  The pair always concatenates back to the input script. -/
def hunkBody : Nat → List DLine → List DLine × List DLine
  | 0, s => (s, [])
  | fuel + 1, s =>
    let chg := s.takeWhile (fun l => !l.isCtx)
    let rest := s.dropWhile (fun l => !l.isCtx)
    let ctx := rest.takeWhile DLine.isCtx
    let rest2 := rest.dropWhile DLine.isCtx
    if chg = [] ∨ rest2 = [] ∨ 2 * diffContext < ctx.length then (chg, rest)
    else
      let br := hunkBody fuel rest2
      (chg ++ ctx ++ br.1, br.2)

/-- Modelled from the spec: group an edit script into hunks, separated by
runs of unchanged lines longer than `2 * diffContext`, each hunk keeping
at most `diffContext` context lines on each flank; `oldPos` / `newPos`
are the 1-indexed coordinates of the script's first line. -/
def hunksAux : Nat → List DLine → Nat → Nat → List Hunk
  | 0, _, _, _ => []
  | fuel + 1, s, oldPos, newPos =>
    let ctx := s.takeWhile DLine.isCtx
    let rest := s.dropWhile DLine.isCtx
    if rest = [] then []
    else
      let lead := ctx.drop (ctx.length - diffContext)
      let br := hunkBody (rest.length + 1) rest
      let trail := (br.2.takeWhile DLine.isCtx).take diffContext
      let lines := lead ++ br.1 ++ trail
      { oldStart := oldPos + (ctx.length - diffContext)
        oldLines := oldCount lines
        newStart := newPos + (ctx.length - diffContext)
        newLines := newCount lines
        lines := lines } ::
        hunksAux fuel br.2 (oldPos + ctx.length + oldCount br.1)
          (newPos + ctx.length + newCount br.1)

/-- Modelled from the spec: `Diff.structuredPatch` (source line 139), the
ordered hunk sequence for two text blobs; the `diff` library's
implementation is missing from src/. -/
def structuredPatch (oldStr newStr : String) : List Hunk :=
  let oldL := splitLines oldStr
  let newL := splitLines newStr
  let script := lcsDiff (oldL.length + newL.length) oldL newL
  hunksAux (script.length + 1) script 1 1

/-! ### Rendering a patch as text (`Diff.createPatch`, source line 131) -/

/-- The marker character convention of unified diffs. -/
def renderDLine : DLine → String
  | .ctx s => " " ++ s
  | .add s => "+" ++ s
  | .del s => "-" ++ s

/-- One decimal digit as a character. -/
def digitChar : Nat → Char
  | 0 => '0'
  | 1 => '1'
  | 2 => '2'
  | 3 => '3'
  | 4 => '4'
  | 5 => '5'
  | 6 => '6'
  | 7 => '7'
  | 8 => '8'
  | _ => '9'

/-- Decimal digits of a positive number, most significant first.  `fuel`
bounds the recursion; `n` itself is always enough. -/
def natDigits : Nat → Nat → List Char
  | 0, _ => []
  | _, 0 => []
  | fuel + 1, n + 1 => natDigits fuel ((n + 1) / 10) ++ [digitChar ((n + 1) % 10)]

/-- Decimal rendering of a number. -/
def natToStr (n : Nat) : String :=
  if n = 0 then "0" else String.mk (natDigits n n)

/-- The `@@ -a,b +c,d @@` header line of a hunk. -/
def hunkHeader (h : Hunk) : String :=
  "@@ -" ++ natToStr h.oldStart ++ "," ++ natToStr h.oldLines ++
    " +" ++ natToStr h.newStart ++ "," ++ natToStr h.newLines ++ " @@"

/-- A hunk rendered as its header line followed by its marked lines. -/
def renderHunk (h : Hunk) : List String :=
  hunkHeader h :: h.lines.map renderDLine

/-- The 67-equals-sign divider line of the patch header block. -/
def patchSeparator : String := String.mk (List.replicate 67 '=')

/-- Modelled from the spec: the lines of the rendered unified patch — the
file header block followed by every hunk's rendering (the `diff`
library's `createPatch` formatting is missing from src/). -/
def patchLines (path oldHeader newHeader : String) (hunks : List Hunk) :
    List String :=
  ["Index: " ++ path,
   patchSeparator,
   "--- " ++ path ++ "\t" ++ oldHeader,
   "+++ " ++ path ++ "\t" ++ newHeader] ++ hunks.flatMap renderHunk

/-- Modelled from the spec: `Diff.createPatch` (source lines 131-137), the
rendered unified-diff text, a derived view of the structured hunks,
newline-joined with a trailing newline. -/
def createPatch (path oldStr newStr oldHeader newHeader : String) : String :=
  String.mk
    (joinCh '\n'
        ((patchLines path oldHeader newHeader
            (structuredPatch oldStr newStr)).map String.toList) ++ ['\n'])

/-! ### Recovering the changes from a rendered patch text -/

/-- Whether a text line opens a hunk (`@@ ...`). -/
def isHunkHeaderPiece : List Char → Bool
  | '@' :: '@' :: _ => true
  | _ => false

/-- Read one rendered diff line back from its marker character. -/
def classifyPiece : List Char → Option DLine
  | ' ' :: rest => some (DLine.ctx (String.mk rest))
  | '+' :: rest => some (DLine.add (String.mk rest))
  | '-' :: rest => some (DLine.del (String.mk rest))
  | _ => none

/-- Group the text lines of a patch into one list of tagged lines per
hunk: everything before the first hunk header is ignored, each header
opens a group, and marker lines fill it.  `fuel` bounds the recursion;
the number of pieces is always enough. -/
def parseHunkGroups : Nat → List (List Char) → List (List DLine)
  | 0, _ => []
  | _, [] => []
  | fuel + 1, p :: ps =>
    if isHunkHeaderPiece p then
      (ps.takeWhile (fun q => !isHunkHeaderPiece q)).filterMap classifyPiece ::
        parseHunkGroups fuel (ps.dropWhile (fun q => !isHunkHeaderPiece q))
    else parseHunkGroups fuel ps

/-- The set of changes recoverable from a rendered patch text: the tagged
lines of each hunk, in order. -/
def recoverChanges (t : String) : List (List DLine) :=
  parseHunkGroups ((splitCh '\n' t.toList).length + 1) (splitCh '\n' t.toList)

/-! ## Comparison Orchestrator (`generateDiffs`, source lines 116-158) -/

/-- The comparison result for one file path (source lines 146-153). -/
structure FileDiff : Type where
  path : String
  status : String
  diffText : String
  hunks : List Hunk
deriving DecidableEq

/-- `starterFiles[path] || ''` (source lines 127-128): the content at a
path, an absent path counted as empty string. -/
def contentAt (fs : FileSet) (p : String) : String := (fsFind fs p).getD ""

/-- `generateDiffs` (source lines 116-158): iterate the JS
`Set`-insertion-order union of both key sets, skip paths with equal
content, classify by JS string falsiness (`!starterContent`), and attach
the rendered patch and the structured hunks. -/
def generateDiffs (starterFiles submissionFiles : FileSet) : List FileDiff :=
  let allPaths :=
    (fsKeys starterFiles ++ fsKeys submissionFiles).foldl
      (fun acc k => if k ∈ acc then acc else acc ++ [k]) []
  allPaths.filterMap (fun path =>
    let starterContent := contentAt starterFiles path
    let submissionContent := contentAt submissionFiles path
    if starterContent ≠ submissionContent then
      some
        { path := path
          status :=
            if starterContent = "" then "added"
            else if submissionContent = "" then "removed"
            else "modified"
          diffText :=
            createPatch path starterContent submissionContent
              "starter" "submission"
          hunks := structuredPatch starterContent submissionContent }
    else none)

/-- The status classification in the words of the spec sentence behind
claim C2, for comparison with `generateDiffs`: `added` when the baseline
lacks the path, `removed` when the candidate lacks it, `modified`
otherwise. -/
def specStatus (A B : FileSet) (p : String) : String :=
  if fsHas A p = false then "added"
  else if fsHas B p = false then "removed"
  else "modified"

/-! ## General helper lemmas -/

theorem toList_append (s t : String) :
    (s ++ t).toList = s.toList ++ t.toList := by
  cases s
  cases t
  rfl

theorem mk_toList (s : String) : String.mk s.toList = s := rfl

theorem toList_mk (l : List Char) : (String.mk l).toList = l := rfl

theorem mk_ne_empty {l : List Char} (h : l ≠ []) : String.mk l ≠ "" := by
  intro hc
  exact h (congrArg String.toList hc)

theorem takeWhile_cons_of_pos {p : α → Bool} {x : α} {l : List α}
    (h : p x = true) : (x :: l).takeWhile p = x :: l.takeWhile p := by
  simp [List.takeWhile, h]

theorem dropWhile_cons_of_pos {p : α → Bool} {x : α} {l : List α}
    (h : p x = true) : (x :: l).dropWhile p = l.dropWhile p := by
  simp [List.dropWhile, h]

theorem takeWhile_append_of_sat {p : α → Bool} {u : List α} (v : List α)
    (h : ∀ x ∈ u, p x = true) :
    (u ++ v).takeWhile p = u ++ v.takeWhile p := by
  induction u with
  | nil => rfl
  | cons a as ih =>
    have ha : p a = true := h a (by simp)
    simp only [List.cons_append, takeWhile_cons_of_pos ha]
    rw [ih (fun y hy => h y (by simp [hy]))]

theorem dropWhile_append_of_sat {p : α → Bool} {u : List α} (v : List α)
    (h : ∀ x ∈ u, p x = true) :
    (u ++ v).dropWhile p = v.dropWhile p := by
  induction u with
  | nil => rfl
  | cons a as ih =>
    have ha : p a = true := h a (by simp)
    simp only [List.cons_append, dropWhile_cons_of_pos ha]
    exact ih (fun y hy => h y (by simp [hy]))

theorem dropWhile_head_neg {p : α → Bool} {x : α} {xs : List α} :
    ∀ {l : List α}, l.dropWhile p = x :: xs → p x = false := by
  intro l
  induction l with
  | nil => intro h; simp at h
  | cons y ys ih =>
    intro h
    by_cases hy : p y = true
    · exact ih (by rwa [dropWhile_cons_of_pos hy] at h)
    · have hy' : p y = false := by simpa using hy
      have h2 : y :: ys = x :: xs := by
        rw [← h]
        simp [List.dropWhile, hy']
      cases h2
      exact hy'

theorem takeWhile_ne_nil_of_head {p : α → Bool} {x : α} {xs : List α}
    (h : p x = true) : (x :: xs).takeWhile p ≠ [] := by
  simp [takeWhile_cons_of_pos h]

theorem mem_of_getLastD {l : List α} {d : α} (h : l ≠ []) :
    l.getLastD d ∈ l := by
  induction l with
  | nil => exact absurd rfl h
  | cons x xs ih =>
    cases xs with
    | nil => simp [List.getLastD]
    | cons y ys =>
      have := ih (by simp)
      simp only [List.getLastD] at this ⊢
      exact List.mem_cons_of_mem _ this

/-! ## Lemmas about splitCh / joinCh -/

theorem splitCh_ne_nil (sep : Char) (cs : List Char) : splitCh sep cs ≠ [] := by
  induction cs with
  | nil => simp [splitCh]
  | cons c cs ih =>
    simp only [splitCh]
    by_cases h : c = sep
    · simp [h]
    · simp only [if_neg h]
      cases hr : splitCh sep cs with
      | nil => exact absurd hr ih
      | cons a as => simp

theorem splitCh_no_sep (sep : Char) (cs : List Char) :
    ∀ l ∈ splitCh sep cs, sep ∉ l := by
  induction cs with
  | nil =>
    intro l hl
    simp [splitCh] at hl
    simp [hl]
  | cons c cs ih =>
    intro l hl
    simp only [splitCh] at hl
    by_cases h : c = sep
    · rw [if_pos h] at hl
      rcases List.mem_cons.1 hl with h1 | h1
      · simp [h1]
      · exact ih l h1
    · rw [if_neg h] at hl
      cases hr : splitCh sep cs with
      | nil => exact absurd hr (splitCh_ne_nil sep cs)
      | cons a as =>
        rw [hr] at hl
        rcases List.mem_cons.1 hl with h1 | h1
        · subst h1
          intro hmem
          rcases List.mem_cons.1 hmem with h2 | h2
          · exact h h2.symm
          · exact ih a (by simp [hr]) h2
        · exact ih l (by simp [hr, h1])

theorem joinCh_splitCh (sep : Char) (cs : List Char) :
    joinCh sep (splitCh sep cs) = cs := by
  induction cs with
  | nil => simp [splitCh, joinCh]
  | cons c cs ih =>
    simp only [splitCh]
    by_cases h : c = sep
    · subst h
      rw [if_pos rfl]
      cases hr : splitCh c cs with
      | nil => exact absurd hr (splitCh_ne_nil c cs)
      | cons a as =>
        rw [hr] at ih
        simp [joinCh, ih]
    · rw [if_neg h]
      cases hr : splitCh sep cs with
      | nil => exact absurd hr (splitCh_ne_nil sep cs)
      | cons a as =>
        rw [hr] at ih
        cases as with
        | nil => simp_all [joinCh]
        | cons b bs => simp_all [joinCh]

theorem splitCh_of_no_sep {sep : Char} {cs : List Char} (h : sep ∉ cs) :
    splitCh sep cs = [cs] := by
  induction cs with
  | nil => simp [splitCh]
  | cons c cs ih =>
    have hc : ¬ c = sep := by
      intro hc
      exact h (by simp [hc])
    simp only [splitCh, if_neg hc]
    rw [ih (fun hm => h (List.mem_cons_of_mem _ hm))]

theorem splitCh_sat_append {sep : Char} {pre : List Char} (cs : List Char)
    (h : sep ∉ pre) :
    splitCh sep (pre ++ cs) =
      (pre ++ (splitCh sep cs).headD []) :: (splitCh sep cs).tail := by
  induction pre with
  | nil =>
    cases hr : splitCh sep cs with
    | nil => exact absurd hr (splitCh_ne_nil sep cs)
    | cons a as => rw [List.nil_append, hr]; simp
  | cons c pre ih =>
    have hc : ¬ c = sep := by
      intro hc
      exact h (by simp [hc])
    simp only [List.cons_append, splitCh, if_neg hc, List.append_eq]
    rw [ih (fun hm => h (List.mem_cons_of_mem _ hm))]

theorem splitCh_joinCh (sep : Char) (ps : List (List Char)) (hne : ps ≠ [])
    (h : ∀ l ∈ ps, sep ∉ l) : splitCh sep (joinCh sep ps) = ps := by
  induction ps with
  | nil => exact absurd rfl hne
  | cons p ps ih =>
    cases ps with
    | nil =>
      simp only [joinCh]
      exact splitCh_of_no_sep (h p (by simp))
    | cons q qs =>
      have hjoin : joinCh sep (p :: q :: qs) = p ++ sep :: joinCh sep (q :: qs) := rfl
      rw [hjoin, splitCh_sat_append _ (h p (by simp))]
      have hrest : splitCh sep (sep :: joinCh sep (q :: qs)) =
          [] :: splitCh sep (joinCh sep (q :: qs)) := by
        simp [splitCh]
      rw [hrest, ih (by simp) (fun l hl => h l (by simp [hl]))]
      simp

/-! ## FileSet lemmas -/

theorem fsFind_insert (fs : FileSet) (k v p : String) :
    fsFind (fsInsert fs k v) p = if p = k then some v else fsFind fs p := by
  unfold fsInsert
  by_cases hk : fsHas fs k = true
  · rw [if_pos hk]
    unfold fsFind
    rw [List.find?_map]
    have hpred : ((fun kv : String × String => decide (kv.1 = p)) ∘
        (fun kv : String × String => if kv.1 = k then (k, v) else kv)) =
        fun kv : String × String => decide (kv.1 = p) := by
      funext kv
      by_cases h : kv.1 = k <;> simp [h]
    rw [hpred, Option.map_map]
    by_cases hp : p = k
    · subst hp
      rcases List.any_eq_true.1 hk with ⟨kv, hkv, hkvp⟩
      have hkvp2 : kv.1 = p := by simpa using hkvp
      cases hfind : List.find? (fun kv : String × String => decide (kv.1 = p)) fs with
      | none =>
        rw [List.find?_eq_none] at hfind
        exact absurd (by simpa using hkvp2) (hfind kv hkv)
      | some kv0 =>
        have h0 : kv0.1 = p := by simpa using List.find?_some hfind
        simp [Function.comp, h0]
    · rw [if_neg hp]
      cases hfind : List.find? (fun kv : String × String => decide (kv.1 = p)) fs with
      | none => simp
      | some kv0 =>
        have h0 : kv0.1 = p := by simpa using List.find?_some hfind
        have hk0 : ¬ kv0.1 = k := by
          rw [h0]
          exact hp
        simp [Function.comp, if_neg hk0]
  · rw [if_neg hk]
    unfold fsFind
    rw [List.find?_append]
    by_cases hp : p = k
    · subst hp
      have hk2 : fs.any (fun kv => decide (kv.1 = p)) = false :=
        Bool.eq_false_iff.mpr hk
      have hnone : List.find? (fun kv : String × String => decide (kv.1 = p)) fs = none := by
        rw [List.find?_eq_none]
        intro kv hkv
        simpa using List.any_eq_false.1 hk2 kv hkv
      rw [hnone, Option.none_or]
      simp [List.find?_cons]
    · rw [if_neg hp]
      have hkp : ¬ (k = p) := fun h => hp h.symm
      have hsingle : List.find? (fun kv : String × String => decide (kv.1 = p)) [(k, v)] = none := by
        simp [List.find?_cons, hkp]
      rw [hsingle, Option.or_none]

theorem processZipFile_eq_foldl (entries : List ZEntry) :
    processZipFile entries = entries.foldl zipStep [] := rfl

theorem foldl_zipStep_find (entries : List ZEntry) :
    ∀ (acc : FileSet) (p : String),
      fsFind (entries.foldl zipStep acc) p =
        (((entries.filter keepEntry).reverse.find?
              (fun e => normalizePath e.path = p)).map ZEntry.text).or
          (fsFind acc p) := by
  induction entries with
  | nil => intro acc p; simp
  | cons e rest ih =>
    intro acc p
    rw [List.foldl_cons, ih]
    by_cases hk : keepEntry e = true
    · have hstep : zipStep acc e = fsInsert acc (normalizePath e.path) e.text := by
        simp [zipStep, hk]
      rw [hstep, List.filter_cons, if_pos hk, List.reverse_cons, List.find?_append]
      by_cases hp : normalizePath e.path = p
      · have hone : List.find? (fun e' => normalizePath e'.path = p) [e] = some e := by
          simp [List.find?_cons, hp]
        rw [hone]
        have hins : fsFind (fsInsert acc (normalizePath e.path) e.text) p =
            some e.text := by
          rw [fsFind_insert, if_pos hp.symm]
        rw [hins]
        cases hfind : List.find? (fun e' => normalizePath e'.path = p)
            (rest.filter keepEntry).reverse with
        | none => simp
        | some e0 => simp
      · have hone : List.find? (fun e' => normalizePath e'.path = p) [e] = none := by
          simp [List.find?_cons, hp]
        rw [hone, Option.or_none, fsFind_insert]
        have hne : ¬ p = normalizePath e.path := fun h => hp h.symm
        rw [if_neg hne]
    · have hstep : zipStep acc e = acc := by
        simp [zipStep, hk]
      rw [hstep, List.filter_cons, if_neg hk]

/-! ## Claim C4: Archive Extractor filtering and normalization -/

/-- C4: the Archive Extractor's FileSet has exactly one binding per kept
entry key — an entry is kept iff it is a non-directory outside
`__MACOSX/` whose path ends in `.py`; the key is the final path
component, and of two kept entries with the same key the
later-enumerated one wins (the binding at each key is the text of the
last kept entry normalizing to it).  In particular, the archive
`foo/bar.py`, `__MACOSX/._bar.py`, `foo/readme.md` yields exactly the
key `bar.py`. -/
theorem extractor_characterization :
    (∀ (entries : List ZEntry) (p : String),
        fsFind (processZipFile entries) p =
          ((entries.filter keepEntry).reverse.find?
              (fun e => normalizePath e.path = p)).map ZEntry.text) ∧
      processZipFile
          [ZEntry.mk "foo/bar.py" false "print(1)" [],
           ZEntry.mk "__MACOSX/._bar.py" false "appledouble" [],
           ZEntry.mk "foo/readme.md" false "hello" []] =
        [("bar.py", "print(1)")] := by
  constructor
  · intro entries p
    rw [processZipFile_eq_foldl, foldl_zipStep_find]
    have : fsFind [] p = none := rfl
    rw [this, Option.or_none]
  · decide

/-! ## Claim C1: equal contents are omitted -/

/-- C1: every path in the ComparisonResult has differing baseline and
candidate contents (absent counted as empty string), and comparing a
FileSet with itself yields the empty result. -/
theorem compare_omits_equal_contents :
    (∀ A B : FileSet,
        (generateDiffs A B).all
          (fun d => contentAt A d.path != contentAt B d.path) = true) ∧
      ∀ A : FileSet, generateDiffs A A = [] := by
  constructor
  · intro A B
    rw [List.all_eq_true]
    intro d hd
    unfold generateDiffs at hd
    rcases List.mem_filterMap.1 hd with ⟨p, _, heq⟩
    by_cases hc : contentAt A p ≠ contentAt B p
    · rw [if_pos hc] at heq
      have hpath : d.path = p := by
        cases heq
        rfl
      rw [bne_iff_ne, hpath]
      exact hc
    · rw [if_neg hc] at heq
      exact absurd heq (by simp)
  · intro A
    unfold generateDiffs
    rw [List.filterMap_eq_nil_iff]
    intro p _
    rw [if_neg]
    intro hc
    exact hc rfl

/-! ## Claim C2: status classification -/

/-- C2 fails as stated: with baseline `{"a.py": ""}` and candidate
`{"a.py": "x"}` both FileSets contain the path `a.py` with differing
content, so the claim requires status `modified`, but the code
classifies by JS string falsiness and reports `added`. -/
theorem status_claim_counterexample :
    fsHas [("a.py", "")] "a.py" = true ∧
      fsHas [("a.py", "x")] "a.py" = true ∧
      contentAt [("a.py", "")] "a.py" ≠ contentAt [("a.py", "x")] "a.py" ∧
      (generateDiffs [("a.py", "")] [("a.py", "x")]).map FileDiff.status =
        ["added"] := by
  refine ⟨by decide, by decide, by decide, by decide⟩

/-- C2 amended: the status of every FileDiff is `added` when the baseline
content is empty (an absent path counted as empty string), `removed`
when the baseline content is non-empty and the candidate content is
empty, and `modified` when both are non-empty. -/
theorem status_matches_content_emptiness :
    ∀ A B : FileSet,
      (generateDiffs A B).all
        (fun d =>
          d.status ==
            (if contentAt A d.path = "" then "added"
             else if contentAt B d.path = "" then "removed"
             else "modified")) = true := by
  intro A B
  rw [List.all_eq_true]
  intro d hd
  unfold generateDiffs at hd
  rcases List.mem_filterMap.1 hd with ⟨p, _, heq⟩
  by_cases hc : contentAt A p ≠ contentAt B p
  · rw [if_pos hc] at heq
    cases heq
    simp
  · rw [if_neg hc] at heq
    exact absurd heq (by simp)

/-! ## Claim C6: the one-line modification scenario -/

/-- C6: comparing `{"a.py": "x=1\n"}` with `{"a.py": "x=2\n"}` produces
exactly one FileDiff with status `modified` and exactly one hunk with
`oldStart = 1`, `oldLines = 1`, `newStart = 1`, `newLines = 1` whose
lines are one removed line `x=1` followed by one added line `x=2`. -/
theorem single_line_modification_scenario :
    (generateDiffs [("a.py", "x=1\n")] [("a.py", "x=2\n")]).map
        (fun d => (d.path, d.status, d.hunks)) =
      [("a.py", "modified",
        [{ oldStart := 1, oldLines := 1, newStart := 1, newLines := 1,
           lines := [DLine.del "x=1", DLine.add "x=2"] }])] := by
  decide

/-! ## Submission Grouper lemmas -/

theorem processSubmissionsZip_eq_foldl (entries : List ZEntry) :
    processSubmissionsZip entries = entries.foldl subStep [] := rfl

theorem tblKeys_tblUpdate (t : SubmissionTable) (k : String)
    (f : FileSet → FileSet) : tblKeys (tblUpdate t k f) = tblKeys t := by
  unfold tblKeys tblUpdate
  rw [List.map_map]
  apply List.map_congr_left
  intro kv _
  by_cases h : kv.1 = k <;> simp [h]

theorem tblKeys_subStep (acc : SubmissionTable) (e : ZEntry) :
    tblKeys (subStep acc e) = tblKeys acc ∨
      (tblKeys (subStep acc e) = tblKeys acc ++ [firstToken e.path] ∧
        qualifiesEntry e = true) := by
  unfold subStep
  by_cases h1 : (includesL e.path "_assignsubmission_file/" &&
      !(includesL e.path "_onlinetext")) = true
  · rw [if_pos h1]
    by_cases hd : e.dir = true
    · left
      simp [hd]
    · have hd2 : (!e.dir) = true := by simp [Bool.eq_false_iff.mpr hd]
      rw [if_pos hd2]
      by_cases hh : tblHas acc (firstToken e.path) = true
      · left
        rw [if_pos hh]
        by_cases hpz : (endsWithL e.path ".py" || endsWithL e.path ".zip") = true
        · rw [if_pos hpz, tblKeys_tblUpdate]
        · rw [if_neg hpz]
      · right
        rw [if_neg hh]
        constructor
        · by_cases hpz : (endsWithL e.path ".py" || endsWithL e.path ".zip") = true
          · rw [if_pos hpz, tblKeys_tblUpdate]
            simp [tblKeys]
          · rw [if_neg hpz]
            simp [tblKeys]
        · unfold qualifiesEntry
          rw [Bool.and_eq_true, hd2]
          exact ⟨h1, rfl⟩
  · left
    rw [if_neg h1]

theorem foldl_subStep_key_origin (entries : List ZEntry) :
    ∀ (acc : SubmissionTable) (s : String),
      s ∈ tblKeys (entries.foldl subStep acc) →
      s ∈ tblKeys acc ∨
        ∃ e ∈ entries, qualifiesEntry e = true ∧ firstToken e.path = s := by
  induction entries with
  | nil =>
    intro acc s h
    exact Or.inl h
  | cons e rest ih =>
    intro acc s h
    rw [List.foldl_cons] at h
    rcases ih (subStep acc e) s h with h1 | h1
    · rcases tblKeys_subStep acc e with h2 | ⟨h2, hq⟩
      · rw [h2] at h1
        exact Or.inl h1
      · rw [h2] at h1
        rcases List.mem_append.1 h1 with h3 | h3
        · exact Or.inl h3
        · right
          refine ⟨e, by simp, hq, ?_⟩
          have : s = firstToken e.path := by simpa using h3
          exact this.symm
    · rcases h1 with ⟨e0, he0, hq0, hs0⟩
      exact Or.inr ⟨e0, by simp [he0], hq0, hs0⟩

theorem studentSubmission_eq_extractor (e : ZEntry)
    (hzip : endsWithL e.path ".zip" = true) :
    processStudentSubmission e = processZipFile e.nested := by
  unfold processStudentSubmission processZipFile
  rw [if_pos hzip]
  apply List.foldl_ext
  intro acc f _
  cases hd : f.dir <;>
    cases hpy : endsWithL f.path ".py" <;>
      cases hmx : startsWithL f.path "__MACOSX/" <;>
        simp [keepEntry, hd, hpy, hmx]

/-! ## Claim C5: Submission Grouper behaviour -/

/-- C5: every SubmitterId key of the SubmissionTable is the token before
the first `_` of some considered entry (inside the submission-folder
marker, not online-text, not a directory); nested `.zip` entries are
extracted with exactly the Archive Extractor's filtering rule; and the
two-submitter scenario yields exactly the keys `alice` and `bob` with
`bob`'s FileSet holding `x.py` from the nested archive. -/
theorem grouper_characterization :
    (∀ c1 c2 : String,
        processSubmissionsZip (scenarioSubEntries c1 c2) =
          [("alice", [("main.py", c1)]), ("bob", [("x.py", c2)])]) ∧
      (∀ (entries : List ZEntry) (s : String) (fs : FileSet),
          (s, fs) ∈ processSubmissionsZip entries →
          ∃ e ∈ entries, qualifiesEntry e = true ∧ firstToken e.path = s) ∧
      ∀ e : ZEntry, endsWithL e.path ".zip" = true →
        processStudentSubmission e = processZipFile e.nested := by
  refine ⟨fun c1 c2 => rfl, ?_, ?_⟩
  · intro entries s fs hmem
    have hkey : s ∈ tblKeys (processSubmissionsZip entries) := by
      unfold tblKeys
      exact List.mem_map.2 ⟨(s, fs), hmem, rfl⟩
    rw [processSubmissionsZip_eq_foldl] at hkey
    rcases foldl_subStep_key_origin entries [] s hkey with h | h
    · simp [tblKeys] at h
    · exact h
  · exact studentSubmission_eq_extractor

/-- Closed instance of `grouper_characterization`: in the two-submitter
scenario the key `alice` indeed stems from a considered entry, and the
nested-archive rule applies to `bob`'s `sub.zip`. -/
theorem grouper_characterization_witness :
    (∃ e ∈ scenarioSubEntries "print(1)" "print(2)",
        qualifiesEntry e = true ∧ firstToken e.path = "alice") ∧
      processStudentSubmission
          (ZEntry.mk "bob_34_assignsubmission_file/sub.zip" false ""
            [ZEntry.mk "x.py" false "print(2)" []]) =
        processZipFile [ZEntry.mk "x.py" false "print(2)" []] := by
  constructor
  · exact grouper_characterization.2.1 (scenarioSubEntries "print(1)" "print(2)")
      "alice" [("main.py", "print(1)")] (by decide)
  · exact grouper_characterization.2.2
      (ZEntry.mk "bob_34_assignsubmission_file/sub.zip" false ""
        [ZEntry.mk "x.py" false "print(2)" []]) (by decide)

/-! ## Claim C7: no empty submitters -/

/-- C7 fails as stated: a qualifying non-directory entry that is neither
`.py` nor `.zip` creates the submitter's key with an empty FileSet
(source lines 80-84 run before the extension check of line 86). -/
theorem empty_submitter_counterexample :
    processSubmissionsZip
        [ZEntry.mk "alice_12_assignsubmission_file/notes.txt" false "memo" []] =
      [("alice", [])] := by
  decide

/-- C7 amended: every SubmitterId key of the SubmissionTable stems from at
least one qualifying non-directory entry inside that submitter's
submission folder; a submitter with no qualifying entry at all is never
added, but a submitter whose qualifying entries are not `.py`/`.zip` (or
yield no files) appears with an empty FileSet. -/
theorem submitter_keys_need_qualifying_entry :
    ∀ (entries : List ZEntry) (s : String),
      s ∈ tblKeys (processSubmissionsZip entries) →
      ∃ e ∈ entries, qualifiesEntry e = true ∧ firstToken e.path = s := by
  intro entries s hkey
  rw [processSubmissionsZip_eq_foldl] at hkey
  rcases foldl_subStep_key_origin entries [] s hkey with h | h
  · simp [tblKeys] at h
  · exact h

/-- Closed instance of `submitter_keys_need_qualifying_entry` at the
counterexample archive. -/
theorem submitter_keys_need_qualifying_entry_witness :
    ∃ e ∈ [ZEntry.mk "alice_12_assignsubmission_file/notes.txt" false "memo" []],
      qualifiesEntry e = true ∧ firstToken e.path = "alice" :=
  submitter_keys_need_qualifying_entry
    [ZEntry.mk "alice_12_assignsubmission_file/notes.txt" false "memo" []]
    "alice" (by decide)

/-! ## Claim C10: key invariant of every produced FileSet -/

theorem suffix_getLastD_joinCh (sep : Char) :
    ∀ (ps : List (List Char)), ps ≠ [] → (∀ l ∈ ps, sep ∉ l) →
      ∀ suf : List Char, sep ∉ suf → suf <:+ joinCh sep ps →
        suf <:+ ps.getLastD [] := by
  intro ps
  induction ps with
  | nil => intro h; exact absurd rfl h
  | cons p ps ih =>
    intro _ hps suf hsuf h
    cases ps with
    | nil => simpa [joinCh, List.getLastD] using h
    | cons q qs =>
      have hjoin : joinCh sep (p :: q :: qs) = p ++ sep :: joinCh sep (q :: qs) := rfl
      rw [hjoin] at h
      have htail : (sep :: joinCh sep (q :: qs)) <:+ p ++ sep :: joinCh sep (q :: qs) :=
        List.suffix_append p (sep :: joinCh sep (q :: qs))
      rcases List.suffix_or_suffix_of_suffix h htail with hcase | hcase
      · rcases List.suffix_cons_iff.1 hcase with heq | hsuf2
        · rw [heq] at hsuf
          exact absurd (by simp) hsuf
        · have := ih (by simp) (fun l hl => hps l (by simp [hl])) suf hsuf hsuf2
          simpa [List.getLastD] using this
      · have hmem : sep ∈ suf := hcase.sublist.subset (by simp)
        exact absurd hmem hsuf

theorem normalizePath_goodKey (p : String)
    (h : endsWithL p ".py" = true) : goodKey (normalizePath p) := by
  have hsuf : ['.', 'p', 'y'] <:+ p.toList := by
    have := List.isSuffixOf_iff_suffix.1 h
    simpa using this
  have hne : splitCh '/' p.toList ≠ [] := splitCh_ne_nil '/' p.toList
  have hnosep : ∀ l ∈ splitCh '/' p.toList, '/' ∉ l :=
    splitCh_no_sep '/' p.toList
  have hjoin : joinCh '/' (splitCh '/' p.toList) = p.toList :=
    joinCh_splitCh '/' p.toList
  have hlast : ['.', 'p', 'y'] <:+ (splitCh '/' p.toList).getLastD [] := by
    apply suffix_getLastD_joinCh '/' (splitCh '/' p.toList) hne hnosep
    · decide
    · rw [hjoin]
      exact hsuf
  have hlastne : (splitCh '/' p.toList).getLastD [] ≠ [] := by
    intro hc
    rw [hc] at hlast
    have := hlast.sublist.length_le
    simp at this
  unfold normalizePath
  rw [if_neg hlastne]
  refine ⟨mk_ne_empty hlastne, ?_, ?_⟩
  · unfold endsWithL
    rw [toList_mk]
    apply List.isSuffixOf_iff_suffix.2
    simpa using hlast
  · rw [toList_mk]
    exact hnosep _ (mem_of_getLastD hne)

theorem mem_fsKeys_fsInsert {fs : FileSet} {k v x : String}
    (h : x ∈ fsKeys (fsInsert fs k v)) : x ∈ fsKeys fs ∨ x = k := by
  unfold fsInsert at h
  by_cases hk : fsHas fs k = true
  · rw [if_pos hk] at h
    unfold fsKeys at h
    rw [List.map_map] at h
    rcases List.mem_map.1 h with ⟨kv, hkv, hx⟩
    by_cases hkvk : kv.1 = k
    · right
      rw [← hx]
      simp [Function.comp, hkvk]
    · left
      apply List.mem_map.2 ⟨kv, hkv, ?_⟩
      rw [← hx]
      simp [Function.comp, hkvk]
  · rw [if_neg hk] at h
    unfold fsKeys at h
    rw [List.map_append] at h
    rcases List.mem_append.1 h with h1 | h1
    · exact Or.inl h1
    · right
      simpa using h1

theorem foldl_zipStep_keys_good (entries : List ZEntry) :
    ∀ acc : FileSet, (∀ x ∈ fsKeys acc, goodKey x) →
      ∀ x ∈ fsKeys (entries.foldl zipStep acc), goodKey x := by
  induction entries with
  | nil => intro acc hacc; exact hacc
  | cons e rest ih =>
    intro acc hacc
    rw [List.foldl_cons]
    apply ih
    intro x hx
    unfold zipStep at hx
    by_cases hk : keepEntry e = true
    · rw [if_pos hk] at hx
      rcases mem_fsKeys_fsInsert hx with h1 | h1
      · exact hacc x h1
      · have hpy : endsWithL e.path ".py" = true := by
          unfold keepEntry at hk
          rw [Bool.and_eq_true, Bool.and_eq_true] at hk
          exact hk.2
        rw [h1]
        exact normalizePath_goodKey e.path hpy
    · rw [if_neg hk] at hx
      exact hacc x hx

theorem processZipFile_keys_good (entries : List ZEntry) :
    ∀ x ∈ fsKeys (processZipFile entries), goodKey x := by
  rw [processZipFile_eq_foldl]
  apply foldl_zipStep_keys_good
  intro x hx
  simp [fsKeys] at hx

theorem fsMerge_keys_good {a b : FileSet}
    (ha : ∀ x ∈ fsKeys a, goodKey x) (hb : ∀ x ∈ fsKeys b, goodKey x) :
    ∀ x ∈ fsKeys (fsMerge a b), goodKey x := by
  unfold fsMerge
  induction b generalizing a with
  | nil => exact ha
  | cons kv rest ih =>
    rw [List.foldl_cons]
    apply ih
    · intro x hx
      rcases mem_fsKeys_fsInsert hx with h1 | h1
      · exact ha x h1
      · rw [h1]
        exact hb kv.1 (by simp [fsKeys])
    · intro x hx
      exact hb x (by simp [fsKeys]; right; simpa [fsKeys] using hx)

theorem studentSubmission_keys_good (e : ZEntry) :
    ∀ x ∈ fsKeys (processStudentSubmission e), goodKey x := by
  by_cases hzip : endsWithL e.path ".zip" = true
  · rw [studentSubmission_eq_extractor e hzip]
    exact processZipFile_keys_good e.nested
  · unfold processStudentSubmission
    rw [if_neg hzip]
    by_cases hpy : endsWithL e.path ".py" = true
    · rw [if_pos hpy]
      intro x hx
      rcases mem_fsKeys_fsInsert hx with h1 | h1
      · simp [fsKeys] at h1
      · rw [h1]
        exact normalizePath_goodKey e.path hpy
    · rw [if_neg hpy]
      intro x hx
      simp [fsKeys] at hx

theorem mem_tblUpdate {t : SubmissionTable} {k : String}
    {f : FileSet → FileSet} {s : String} {fs : FileSet}
    (h : (s, fs) ∈ tblUpdate t k f) :
    (s, fs) ∈ t ∨ ∃ old, (k, old) ∈ t ∧ s = k ∧ fs = f old := by
  unfold tblUpdate at h
  rcases List.mem_map.1 h with ⟨kv, hkv, hx⟩
  by_cases hkvk : kv.1 = k
  · rw [if_pos hkvk] at hx
    injection hx with hx1 hx2
    right
    refine ⟨kv.2, ?_, hx1.symm, hx2.symm⟩
    rw [← hkvk]
    exact hkv
  · rw [if_neg hkvk] at hx
    left
    rw [← hx]
    exact hkv

theorem foldl_subStep_values_good (entries : List ZEntry) :
    ∀ acc : SubmissionTable,
      (∀ s fs, (s, fs) ∈ acc → ∀ x ∈ fsKeys fs, goodKey x) →
      ∀ s fs, (s, fs) ∈ entries.foldl subStep acc →
        ∀ x ∈ fsKeys fs, goodKey x := by
  induction entries with
  | nil => intro acc hacc; exact hacc
  | cons e rest ih =>
    intro acc hacc
    rw [List.foldl_cons]
    apply ih
    intro s fs hmem
    unfold subStep at hmem
    by_cases h1 : (includesL e.path "_assignsubmission_file/" &&
        !(includesL e.path "_onlinetext")) = true
    · rw [if_pos h1] at hmem
      by_cases hd : (!e.dir) = true
      · rw [if_pos hd] at hmem
        have hacc1 : ∀ s fs,
            (s, fs) ∈ (if tblHas acc (firstToken e.path) = true then acc
              else acc ++ [(firstToken e.path, [])]) →
            ∀ x ∈ fsKeys fs, goodKey x := by
          by_cases hh : tblHas acc (firstToken e.path) = true
          · rw [if_pos hh]
            exact hacc
          · rw [if_neg hh]
            intro s fs hm
            rcases List.mem_append.1 hm with hm1 | hm1
            · exact hacc s fs hm1
            · have : s = firstToken e.path ∧ fs = [] := by simpa using hm1
              rw [this.2]
              intro x hx
              simp [fsKeys] at hx
        by_cases hpz : (endsWithL e.path ".py" || endsWithL e.path ".zip") = true
        · rw [if_pos hpz] at hmem
          rcases mem_tblUpdate hmem with h2 | ⟨old, hold, hs, hfs⟩
          · exact hacc1 s fs h2
          · rw [hfs]
            exact fsMerge_keys_good (hacc1 _ old hold)
              (studentSubmission_keys_good e)
        · rw [if_neg hpz] at hmem
          exact hacc1 s fs hmem
      · rw [if_neg hd] at hmem
        exact hacc s fs hmem
    · rw [if_neg h1] at hmem
      exact hacc s fs hmem

/-- C10: every key of every FileSet produced by the Archive Extractor or
by the Submission Grouper (directly inserted `.py` entries and nested
archive extractions alike) is a non-empty string ending in `.py` that
contains no `/`. -/
theorem produced_keys_good :
    (∀ (entries : List ZEntry), ∀ x ∈ fsKeys (processZipFile entries),
        goodKey x) ∧
      ∀ (entries : List ZEntry) (s : String) (fs : FileSet),
        (s, fs) ∈ processSubmissionsZip entries →
        ∀ x ∈ fsKeys fs, goodKey x := by
  constructor
  · exact processZipFile_keys_good
  · intro entries s fs hmem
    rw [processSubmissionsZip_eq_foldl] at hmem
    apply foldl_subStep_values_good entries [] _ s fs hmem
    intro s0 fs0 hm
    simp at hm

/-- Closed instance of `produced_keys_good`: the key `bar.py` extracted
from the C4 scenario archive and the key `x.py` of `bob`'s nested
submission both satisfy the invariant. -/
theorem produced_keys_good_witness :
    goodKey "bar.py" ∧ goodKey "x.py" := by
  constructor
  · exact produced_keys_good.1
      [ZEntry.mk "foo/bar.py" false "print(1)" []] "bar.py" (by decide)
  · exact produced_keys_good.2 (scenarioSubEntries "print(1)" "print(2)")
      "bob" [("x.py", "print(2)")] (by decide) "x.py" (by decide)

/-! ## Edit-script lemmas -/

theorem filterMap_old_map_add (ys : List String) :
    ys.filterMap (DLine.oldText ∘ DLine.add) = [] := by
  induction ys with
  | nil => rfl
  | cons b bs ihb =>
    simp [List.filterMap_cons, DLine.oldText, Function.comp, ihb]

theorem filterMap_old_map_del (xs : List String) :
    xs.filterMap (DLine.oldText ∘ DLine.del) = xs := by
  induction xs with
  | nil => rfl
  | cons b bs ihb =>
    simp [List.filterMap_cons, DLine.oldText, Function.comp, ihb]

theorem filterMap_new_map_add (ys : List String) :
    ys.filterMap (DLine.newText ∘ DLine.add) = ys := by
  induction ys with
  | nil => rfl
  | cons b bs ihb =>
    simp [List.filterMap_cons, DLine.newText, Function.comp, ihb]

theorem filterMap_new_map_del (xs : List String) :
    xs.filterMap (DLine.newText ∘ DLine.del) = [] := by
  induction xs with
  | nil => rfl
  | cons b bs ihb =>
    simp [List.filterMap_cons, DLine.newText, Function.comp, ihb]

theorem lcsDiff_oldProj :
    ∀ (fuel : Nat) (xs ys : List String),
      (lcsDiff fuel xs ys).filterMap DLine.oldText = xs := by
  intro fuel
  induction fuel with
  | zero =>
    intro xs ys
    cases xs with
    | nil => simp [lcsDiff, filterMap_old_map_add, DLine.oldText]
    | cons x xs =>
      cases ys with
      | nil => simp [lcsDiff, filterMap_old_map_del, DLine.oldText]
      | cons y ys =>
        simp [lcsDiff, List.filterMap_cons, List.filterMap_append,
          filterMap_old_map_del, filterMap_old_map_add, DLine.oldText]
  | succ fuel ih =>
    intro xs ys
    cases xs with
    | nil => simp [lcsDiff, filterMap_old_map_add, DLine.oldText]
    | cons x xs =>
      cases ys with
      | nil => simp [lcsDiff, filterMap_old_map_del, DLine.oldText]
      | cons y ys =>
        simp only [lcsDiff]
        by_cases hxy : x = y
        · rw [if_pos hxy]
          simp [List.filterMap_cons, DLine.oldText, ih]
        · rw [if_neg hxy]
          by_cases hlen : lcsLen fuel (x :: xs) ys ≤ lcsLen fuel xs (y :: ys)
          · rw [if_pos hlen]
            simp [List.filterMap_cons, DLine.oldText, ih]
          · rw [if_neg hlen]
            simp [List.filterMap_cons, DLine.oldText, ih]

theorem lcsDiff_newProj :
    ∀ (fuel : Nat) (xs ys : List String),
      (lcsDiff fuel xs ys).filterMap DLine.newText = ys := by
  intro fuel
  induction fuel with
  | zero =>
    intro xs ys
    cases xs with
    | nil => simp [lcsDiff, filterMap_new_map_add, DLine.newText]
    | cons x xs =>
      cases ys with
      | nil => simp [lcsDiff, filterMap_new_map_del, DLine.newText]
      | cons y ys =>
        simp [lcsDiff, List.filterMap_cons, List.filterMap_append,
          filterMap_new_map_del, filterMap_new_map_add, DLine.newText]
  | succ fuel ih =>
    intro xs ys
    cases xs with
    | nil => simp [lcsDiff, filterMap_new_map_add, DLine.newText]
    | cons x xs =>
      cases ys with
      | nil => simp [lcsDiff, filterMap_new_map_del, DLine.newText]
      | cons y ys =>
        simp only [lcsDiff]
        by_cases hxy : x = y
        · rw [if_pos hxy]
          simp [List.filterMap_cons, DLine.newText, ih, hxy]
        · rw [if_neg hxy]
          by_cases hlen : lcsLen fuel (x :: xs) ys ≤ lcsLen fuel xs (y :: ys)
          · rw [if_pos hlen]
            simp [List.filterMap_cons, DLine.newText, ih]
          · rw [if_neg hlen]
            simp [List.filterMap_cons, DLine.newText, ih]

/-! ## Hunk construction lemmas -/

theorem hunkBody_append : ∀ (fuel : Nat) (s : List DLine),
    (hunkBody fuel s).1 ++ (hunkBody fuel s).2 = s := by
  intro fuel
  induction fuel with
  | zero => intro s; simp [hunkBody]
  | succ fuel ih =>
    intro s
    simp only [hunkBody]
    by_cases hstop : (s.takeWhile (fun l => !l.isCtx) = [] ∨
        (s.dropWhile (fun l => !l.isCtx)).dropWhile DLine.isCtx = [] ∨
        2 * diffContext <
          ((s.dropWhile (fun l => !l.isCtx)).takeWhile DLine.isCtx).length)
    · rw [if_pos hstop]
      exact List.takeWhile_append_dropWhile _ _
    · rw [if_neg hstop]
      have h1 := ih ((s.dropWhile (fun l => !l.isCtx)).dropWhile DLine.isCtx)
      simp only [List.append_assoc]
      rw [h1]
      rw [List.takeWhile_append_dropWhile, List.takeWhile_append_dropWhile]

theorem hunkBody_rem_gap : ∀ (fuel : Nat) (s : List DLine),
    s.takeWhile (fun l => !l.isCtx) ≠ [] →
    ((hunkBody fuel s).2.dropWhile DLine.isCtx = [] ∨
      2 * diffContext < ((hunkBody fuel s).2.takeWhile DLine.isCtx).length) := by
  intro fuel
  induction fuel with
  | zero => intro s _; simp [hunkBody]
  | succ fuel ih =>
    intro s hchg
    simp only [hunkBody]
    by_cases hstop : (s.takeWhile (fun l => !l.isCtx) = [] ∨
        (s.dropWhile (fun l => !l.isCtx)).dropWhile DLine.isCtx = [] ∨
        2 * diffContext <
          ((s.dropWhile (fun l => !l.isCtx)).takeWhile DLine.isCtx).length)
    · rw [if_pos hstop]
      rcases hstop with h1 | h1 | h1
      · exact absurd h1 hchg
      · exact Or.inl h1
      · exact Or.inr h1
    · rw [if_neg hstop]
      push_neg at hstop
      rcases hstop with ⟨_, hrest2, _⟩
      have hne : ((s.dropWhile (fun l => !l.isCtx)).dropWhile
          DLine.isCtx).takeWhile (fun l => !l.isCtx) ≠ [] := by
        cases hr2 : (s.dropWhile (fun l => !l.isCtx)).dropWhile DLine.isCtx with
        | nil => exact absurd hr2 hrest2
        | cons d ds =>
          have hd : DLine.isCtx d = false := dropWhile_head_neg hr2
          exact takeWhile_ne_nil_of_head (by simp [hd])
      exact ih _ hne

theorem oldCount_append (a b : List DLine) :
    oldCount (a ++ b) = oldCount a + oldCount b := by
  simp [oldCount, List.filterMap_append]

theorem newCount_append (a b : List DLine) :
    newCount (a ++ b) = newCount a + newCount b := by
  simp [newCount, List.filterMap_append]

theorem counts_of_ctx : ∀ (ls : List DLine), (∀ l ∈ ls, l.isCtx = true) →
    oldCount ls = ls.length ∧ newCount ls = ls.length := by
  intro ls
  induction ls with
  | nil => intro _; simp [oldCount, newCount]
  | cons l ls ih =>
    intro h
    have hl : l.isCtx = true := h l (by simp)
    cases l with
    | ctx s =>
      have := ih (fun x hx => h x (by simp [hx]))
      simp [oldCount, newCount, List.filterMap_cons, DLine.oldText,
        DLine.newText] at this ⊢
      exact this
    | add s => simp [DLine.isCtx] at hl
    | del s => simp [DLine.isCtx] at hl

theorem hunksAux_nil (fuel : Nat) (s : List DLine) (p q : Nat)
    (h : s.dropWhile DLine.isCtx = []) : hunksAux fuel s p q = [] := by
  cases fuel with
  | zero => simp [hunksAux]
  | succ fuel => simp [hunksAux, h]

theorem filterMap_slice (f : DLine → Option String)
    (pre mid post : List DLine) :
    (((pre ++ (mid ++ post)).filterMap f).drop
        ((pre.filterMap f)).length).take ((mid.filterMap f)).length =
      mid.filterMap f := by
  rw [List.filterMap_append, List.drop_left, List.filterMap_append,
    List.take_left]

theorem hunksAux_mem_spec : ∀ (fuel : Nat) (s : List DLine) (p q : Nat),
    ∀ h ∈ hunksAux fuel s p q,
      p ≤ h.oldStart ∧ q ≤ h.newStart ∧
      h.oldLines = oldCount h.lines ∧ h.newLines = newCount h.lines ∧
      (∀ l ∈ h.lines, l ∈ s) ∧
      h.lines.filterMap DLine.oldText =
        ((s.filterMap DLine.oldText).drop (h.oldStart - p)).take h.oldLines ∧
      h.lines.filterMap DLine.newText =
        ((s.filterMap DLine.newText).drop (h.newStart - q)).take h.newLines := by
  intro fuel
  induction fuel with
  | zero => intro s p q h hmem; simp [hunksAux] at hmem
  | succ fuel ih =>
    intro s p q h hmem
    simp only [hunksAux] at hmem
    by_cases hrest0 : s.dropWhile DLine.isCtx = []
    · rw [if_pos hrest0] at hmem
      simp at hmem
    · rw [if_neg hrest0] at hmem
      set ctx := s.takeWhile DLine.isCtx with hctxdef
      set rest := s.dropWhile DLine.isCtx with hrestdef
      set br := hunkBody (rest.length + 1) rest with hbrdef
      set lead := ctx.drop (ctx.length - diffContext) with hleaddef
      set trail := (br.2.takeWhile DLine.isCtx).take diffContext with htraildef
      have hsplit : ctx ++ rest = s := List.takeWhile_append_dropWhile _ _
      have hbodyrem : br.1 ++ br.2 = rest := hunkBody_append _ _
      have hctxmem : ∀ l ∈ ctx, l.isCtx = true := fun l hl =>
        List.mem_takeWhile_imp hl
      have hctxcount := counts_of_ctx ctx hctxmem
      rcases List.mem_cons.1 hmem with hh | hh
      · -- h is the head hunk
        subst hh
        set ctxA := ctx.take (ctx.length - diffContext) with hctxAdef
        have hA : ctxA ++ lead = ctx := List.take_append_drop _ _
        obtain ⟨after, hafter⟩ : trail <+: br.2 :=
          (List.take_prefix _ _).trans (List.takeWhile_prefix _)
        have hs : ctxA ++ ((lead ++ br.1 ++ trail) ++ after) = s := by
          rw [← hsplit, ← hbodyrem, ← hafter, ← hA]
          simp [List.append_assoc]
        have hctxAmem : ∀ l ∈ ctxA, l.isCtx = true := fun l hl =>
          hctxmem l (List.take_subset _ _ hl)
        have hctxAcount := counts_of_ctx ctxA hctxAmem
        have hctxAlen : ctxA.length = ctx.length - diffContext := by
          rw [hctxAdef, List.length_take]
          exact min_eq_left (Nat.sub_le _ _)
        refine ⟨Nat.le_add_right _ _, Nat.le_add_right _ _, rfl, rfl, ?_, ?_, ?_⟩
        · intro l hl
          rw [← hs]
          exact List.mem_append.2 (Or.inr (List.mem_append.2 (Or.inl hl)))
        · show (lead ++ br.1 ++ trail).filterMap DLine.oldText =
            ((s.filterMap DLine.oldText).drop
                (p + (ctx.length - diffContext) - p)).take
              (oldCount (lead ++ br.1 ++ trail))
          have hlenA : ctx.length - diffContext =
              (ctxA.filterMap DLine.oldText).length := by
            have h1 : (ctxA.filterMap DLine.oldText).length = oldCount ctxA := rfl
            rw [h1, hctxAcount.1, hctxAlen]
          have h2 : oldCount (lead ++ br.1 ++ trail) =
              ((lead ++ br.1 ++ trail).filterMap DLine.oldText).length := rfl
          rw [Nat.add_sub_cancel_left, hlenA, h2, ← hs]
          exact (filterMap_slice DLine.oldText ctxA _ after).symm
        · show (lead ++ br.1 ++ trail).filterMap DLine.newText =
            ((s.filterMap DLine.newText).drop
                (q + (ctx.length - diffContext) - q)).take
              (newCount (lead ++ br.1 ++ trail))
          have hlenA : ctx.length - diffContext =
              (ctxA.filterMap DLine.newText).length := by
            have h1 : (ctxA.filterMap DLine.newText).length = newCount ctxA := rfl
            rw [h1, hctxAcount.2, hctxAlen]
          have h2 : newCount (lead ++ br.1 ++ trail) =
              ((lead ++ br.1 ++ trail).filterMap DLine.newText).length := rfl
          rw [Nat.add_sub_cancel_left, hlenA, h2, ← hs]
          exact (filterMap_slice DLine.newText ctxA _ after).symm
      · -- h is in the tail
        have hspec := ih br.2 (p + ctx.length + oldCount br.1)
          (q + ctx.length + newCount br.1) h hh
        obtain ⟨ha, hb, hc, hd, he, hf, hg⟩ := hspec
        have hcb : (ctx ++ br.1) ++ br.2 = s := by
          rw [List.append_assoc, hbodyrem, hsplit]
        have hsubset : ∀ l ∈ br.2, l ∈ s := by
          intro l hl
          rw [← hcb]
          exact List.mem_append.2 (Or.inr hl)
        refine ⟨by omega, by omega, hc, hd, fun l hl => hsubset l (he l hl), ?_, ?_⟩
        · have hproj : s.filterMap DLine.oldText =
              (ctx ++ br.1).filterMap DLine.oldText ++ br.2.filterMap DLine.oldText := by
            rw [← hcb, List.filterMap_append]
          have hlen : ((ctx ++ br.1).filterMap DLine.oldText).length =
              ctx.length + oldCount br.1 := by
            have : ((ctx ++ br.1).filterMap DLine.oldText).length =
                oldCount (ctx ++ br.1) := rfl
            rw [this, oldCount_append, hctxcount.1]
          have hremproj : br.2.filterMap DLine.oldText =
              (s.filterMap DLine.oldText).drop (ctx.length + oldCount br.1) := by
            rw [hproj, ← hlen, List.drop_left]
          rw [hf, hremproj, List.drop_drop]
          have harith : ctx.length + oldCount br.1 +
              (h.oldStart - (p + ctx.length + oldCount br.1)) = h.oldStart - p := by
            omega
          rw [harith]
        · have hproj : s.filterMap DLine.newText =
              (ctx ++ br.1).filterMap DLine.newText ++ br.2.filterMap DLine.newText := by
            rw [← hcb, List.filterMap_append]
          have hlen : ((ctx ++ br.1).filterMap DLine.newText).length =
              ctx.length + newCount br.1 := by
            have : ((ctx ++ br.1).filterMap DLine.newText).length =
                newCount (ctx ++ br.1) := rfl
            rw [this, newCount_append, hctxcount.2]
          have hremproj : br.2.filterMap DLine.newText =
              (s.filterMap DLine.newText).drop (ctx.length + newCount br.1) := by
            rw [hproj, ← hlen, List.drop_left]
          rw [hg, hremproj, List.drop_drop]
          have harith : ctx.length + newCount br.1 +
              (h.newStart - (q + ctx.length + newCount br.1)) = h.newStart - q := by
            omega
          rw [harith]

theorem hunksAux_chain : ∀ (fuel : Nat) (s : List DLine) (p q : Nat),
    (∀ h ∈ hunksAux fuel s p q,
        p + ((s.takeWhile DLine.isCtx).length - diffContext) ≤ h.oldStart) ∧
      (hunksAux fuel s p q).Pairwise
        (fun h1 h2 => h1.oldStart < h2.oldStart ∧
          h1.oldStart + h1.oldLines ≤ h2.oldStart) := by
  intro fuel
  induction fuel with
  | zero => intro s p q; simp [hunksAux]
  | succ fuel ih =>
    intro s p q
    by_cases hrest0 : s.dropWhile DLine.isCtx = []
    · simp [hunksAux, hrest0]
    · simp only [hunksAux]
      rw [if_neg hrest0]
      set ctx := s.takeWhile DLine.isCtx with hctxdef
      set rest := s.dropWhile DLine.isCtx with hrestdef
      set br := hunkBody (rest.length + 1) rest with hbrdef
      set lead := ctx.drop (ctx.length - diffContext) with hleaddef
      set trail := (br.2.takeWhile DLine.isCtx).take diffContext with htraildef
      obtain ⟨ihbound, ihpair⟩ := ih br.2 (p + ctx.length + oldCount br.1)
        (q + ctx.length + newCount br.1)
      have hC : diffContext = 4 := rfl
      have hchg : rest.takeWhile (fun l => !l.isCtx) ≠ [] := by
        cases hr : rest with
        | nil => exact absurd hr hrest0
        | cons d ds =>
          have hd : DLine.isCtx d = false :=
            dropWhile_head_neg (hrestdef.symm.trans hr)
          exact takeWhile_ne_nil_of_head (by simp [hd])
      have hgap := hunkBody_rem_gap (rest.length + 1) rest hchg
      rw [← hbrdef] at hgap
      have hleadlen : lead.length = ctx.length - (ctx.length - diffContext) := by
        rw [hleaddef, List.length_drop]
      have htraillen : trail.length ≤ diffContext := by
        rw [htraildef, List.length_take]
        exact min_le_left _ _
      have hlinecount : oldCount (lead ++ br.1 ++ trail) =
          oldCount lead + oldCount br.1 + oldCount trail := by
        rw [oldCount_append, oldCount_append]
      have hleadctx : ∀ l ∈ lead, l.isCtx = true := fun l hl =>
        List.mem_takeWhile_imp (List.drop_subset _ _ hl)
      have htrailctx : ∀ l ∈ trail, l.isCtx = true := fun l hl =>
        List.mem_takeWhile_imp (List.take_subset _ _ hl)
      have hleadcount : oldCount lead = lead.length := (counts_of_ctx _ hleadctx).1
      have htrailcount : oldCount trail = trail.length :=
        (counts_of_ctx _ htrailctx).1
      rcases hgap with hnil | hbig
      · -- no further hunks
        rw [hunksAux_nil fuel br.2 _ _ hnil]
        constructor
        · intro h hmem
          rcases List.mem_cons.1 hmem with hh | hh
          · subst hh
            exact Nat.le_refl _
          · simp at hh
        · simp
      · -- a long context gap separates the next hunk
        constructor
        · intro h hmem
          rcases List.mem_cons.1 hmem with hh | hh
          · subst hh
            exact Nat.le_refl _
          · have := ihbound h hh
            omega
        · rw [List.pairwise_cons]
          refine ⟨?_, ihpair⟩
          intro h hmem
          have hb := ihbound h hmem
          have htl : trail.length = min diffContext (br.2.takeWhile DLine.isCtx).length := by
            rw [htraildef, List.length_take]
          constructor
          · simp only []
            omega
          · simp only []
            omega

/-! ## Claim C3: reconstructing the inputs from the hunks -/

/-- C3 fails as stated: hunks keep at most `diffContext` context lines on
each flank, so unchanged lines far from any change appear in no hunk and
the concatenation of context+removed lines over all hunks loses them. -/
theorem reconstruction_counterexample :
    (structuredPatch "X\na\nb\nc\nd\ne\n" "Y\na\nb\nc\nd\ne\n").flatMap
        (fun h => h.lines.filterMap DLine.oldText) ≠
      splitLines "X\na\nb\nc\nd\ne\n" := by
  decide

/-- C3 amended: for every hunk, its context+removed lines are exactly the
`oldLines`-long slice of the baseline's lines starting at line
`oldStart`, and its context+added lines are exactly the `newLines`-long
slice of the candidate's lines starting at line `newStart`; the
concatenation over all hunks therefore reconstructs precisely the
regions of the two texts covered by the hunks' line ranges. -/
theorem hunk_lines_reconstruct_slices :
    ∀ (oldStr newStr : String), ∀ h ∈ structuredPatch oldStr newStr,
      h.lines.filterMap DLine.oldText =
        ((splitLines oldStr).drop (h.oldStart - 1)).take h.oldLines ∧
      h.lines.filterMap DLine.newText =
        ((splitLines newStr).drop (h.newStart - 1)).take h.newLines := by
  intro oldStr newStr h hmem
  simp only [structuredPatch] at hmem
  obtain ⟨_, _, _, _, _, hf, hg⟩ := hunksAux_mem_spec _ _ 1 1 h hmem
  rw [lcsDiff_oldProj] at hf
  rw [lcsDiff_newProj] at hg
  exact ⟨hf, hg⟩

/-- Closed instance of `hunk_lines_reconstruct_slices` at the one-line
modification scenario. -/
theorem hunk_lines_reconstruct_slices_witness :
    [DLine.del "x=1", DLine.add "x=2"].filterMap DLine.oldText =
        ((splitLines "x=1\n").drop (1 - 1)).take 1 ∧
      [DLine.del "x=1", DLine.add "x=2"].filterMap DLine.newText =
        ((splitLines "x=2\n").drop (1 - 1)).take 1 :=
  hunk_lines_reconstruct_slices "x=1\n" "x=2\n"
    { oldStart := 1, oldLines := 1, newStart := 1, newLines := 1,
      lines := [DLine.del "x=1", DLine.add "x=2"] } (by decide)

/-! ## Claim C8: hunk ordering and disjointness -/

/-- C8: the hunk sequence is ordered by strictly increasing baseline
start line and the baseline line ranges of distinct hunks do not
overlap. -/
theorem hunks_ordered_disjoint :
    ∀ oldStr newStr : String,
      (structuredPatch oldStr newStr).Pairwise
        (fun h1 h2 => h1.oldStart < h2.oldStart ∧
          h1.oldStart + h1.oldLines ≤ h2.oldStart) := by
  intro oldStr newStr
  simp only [structuredPatch]
  exact (hunksAux_chain _ _ 1 1).2

/-! ## Rendered-patch lemmas -/

theorem joinCh_append_empty (sep : Char) :
    ∀ (ls : List (List Char)), ls ≠ [] →
      joinCh sep (ls ++ [[]]) = joinCh sep ls ++ [sep] := by
  intro ls
  induction ls with
  | nil => intro h; exact absurd rfl h
  | cons l ls ih =>
    intro _
    cases ls with
    | nil => simp [joinCh]
    | cons m ms =>
      have := ih (by simp)
      simp only [List.cons_append, joinCh, List.append_eq] at this ⊢
      rw [this]
      simp

theorem splitCh_patch (sep : Char) (ls : List (List Char)) (hne : ls ≠ [])
    (h : ∀ l ∈ ls, sep ∉ l) :
    splitCh sep (joinCh sep ls ++ [sep]) = ls ++ [[]] := by
  rw [← joinCh_append_empty sep ls hne]
  apply splitCh_joinCh sep (ls ++ [[]]) (by simp)
  intro l hl
  rcases List.mem_append.1 hl with h1 | h1
  · exact h l h1
  · have : l = [] := by simpa using h1
    simp [this]

theorem digitChar_ne_newline : ∀ d : Nat, digitChar d ≠ '\n' := by
  intro d
  unfold digitChar
  split <;> decide

theorem natDigits_no_newline : ∀ (fuel n : Nat), '\n' ∉ natDigits fuel n := by
  intro fuel
  induction fuel with
  | zero => intro n; simp [natDigits]
  | succ fuel ih =>
    intro n
    cases n with
    | zero => simp [natDigits]
    | succ m =>
      simp only [natDigits]
      intro hmem
      rcases List.mem_append.1 hmem with h1 | h1
      · exact ih _ h1
      · have : '\n' = digitChar ((m + 1) % 10) := by simpa using h1
        exact digitChar_ne_newline _ this.symm

theorem natToStr_no_newline (n : Nat) : '\n' ∉ (natToStr n).toList := by
  unfold natToStr
  by_cases h : n = 0
  · rw [if_pos h]
    decide
  · rw [if_neg h, toList_mk]
    exact natDigits_no_newline n n

theorem splitLines_no_newline (t l : String) (h : l ∈ splitLines t) :
    '\n' ∉ l.toList := by
  unfold splitLines at h
  rcases List.mem_map.1 h with ⟨piece, hpiece, hl⟩
  have hsub : piece ∈ splitCh '\n' t.toList := by
    by_cases hd : (splitCh '\n' t.toList).getLastD [] = []
    · rw [if_pos hd] at hpiece
      exact (List.dropLast_sublist _).subset hpiece
    · rw [if_neg hd] at hpiece
      exact hpiece
  rw [← hl, toList_mk]
  exact splitCh_no_sep '\n' t.toList piece hsub

theorem lcsDiff_text_mem :
    ∀ (fuel : Nat) (xs ys : List String), ∀ d ∈ lcsDiff fuel xs ys,
      dlineText d ∈ xs ∨ dlineText d ∈ ys := by
  intro fuel
  induction fuel with
  | zero =>
    intro xs ys d hd
    cases xs with
    | nil =>
      simp only [lcsDiff] at hd
      rcases List.mem_map.1 hd with ⟨y, hy, rfl⟩
      exact Or.inr (by simpa [dlineText] using hy)
    | cons x xs =>
      cases ys with
      | nil =>
        simp only [lcsDiff] at hd
        rcases List.mem_map.1 hd with ⟨y, hy, rfl⟩
        exact Or.inl (by simpa [dlineText] using hy)
      | cons y ys =>
        simp only [lcsDiff] at hd
        rcases List.mem_append.1 hd with h1 | h1
        · rcases List.mem_map.1 h1 with ⟨z, hz, rfl⟩
          exact Or.inl (by simpa [dlineText] using hz)
        · rcases List.mem_map.1 h1 with ⟨z, hz, rfl⟩
          exact Or.inr (by simpa [dlineText] using hz)
  | succ fuel ih =>
    intro xs ys d hd
    cases xs with
    | nil =>
      simp only [lcsDiff] at hd
      rcases List.mem_map.1 hd with ⟨y, hy, rfl⟩
      exact Or.inr (by simpa [dlineText] using hy)
    | cons x xs =>
      cases ys with
      | nil =>
        simp only [lcsDiff] at hd
        rcases List.mem_map.1 hd with ⟨y, hy, rfl⟩
        exact Or.inl (by simpa [dlineText] using hy)
      | cons y ys =>
        simp only [lcsDiff] at hd
        by_cases hxy : x = y
        · rw [if_pos hxy] at hd
          rcases List.mem_cons.1 hd with rfl | h1
          · exact Or.inl (by simp [dlineText])
          · rcases ih xs ys d h1 with h2 | h2
            · exact Or.inl (by simp [h2])
            · exact Or.inr (by simp [h2])
        · rw [if_neg hxy] at hd
          by_cases hlen : lcsLen fuel (x :: xs) ys ≤ lcsLen fuel xs (y :: ys)
          · rw [if_pos hlen] at hd
            rcases List.mem_cons.1 hd with rfl | h1
            · exact Or.inl (by simp [dlineText])
            · rcases ih xs (y :: ys) d h1 with h2 | h2
              · exact Or.inl (by simp [h2])
              · exact Or.inr h2
          · rw [if_neg hlen] at hd
            rcases List.mem_cons.1 hd with rfl | h1
            · exact Or.inr (by simp [dlineText])
            · rcases ih (x :: xs) ys d h1 with h2 | h2
              · exact Or.inl h2
              · exact Or.inr (by simp [h2])

theorem structuredPatch_no_newline (oldStr newStr : String) :
    ∀ h ∈ structuredPatch oldStr newStr, ∀ l ∈ h.lines,
      '\n' ∉ (dlineText l).toList := by
  intro h hm l hl
  simp only [structuredPatch] at hm
  have hsub := (hunksAux_mem_spec _ _ 1 1 h hm).2.2.2.2.1 l hl
  rcases lcsDiff_text_mem _ _ _ l hsub with h1 | h1
  · exact splitLines_no_newline _ _ h1
  · exact splitLines_no_newline _ _ h1

theorem classify_render (l : DLine) :
    classifyPiece ((renderDLine l).toList) = some l := by
  cases l with
  | ctx s =>
    show classifyPiece ((" " ++ s).toList) = some (DLine.ctx s)
    rw [toList_append]
    simp [classifyPiece, mk_toList]
  | add s =>
    show classifyPiece (("+" ++ s).toList) = some (DLine.add s)
    rw [toList_append]
    simp [classifyPiece, mk_toList]
  | del s =>
    show classifyPiece (("-" ++ s).toList) = some (DLine.del s)
    rw [toList_append]
    simp [classifyPiece, mk_toList]

theorem render_not_header (l : DLine) :
    isHunkHeaderPiece ((renderDLine l).toList) = false := by
  cases l with
  | ctx s =>
    show isHunkHeaderPiece ((" " ++ s).toList) = false
    rw [toList_append]
    rfl
  | add s =>
    show isHunkHeaderPiece (("+" ++ s).toList) = false
    rw [toList_append]
    rfl
  | del s =>
    show isHunkHeaderPiece (("-" ++ s).toList) = false
    rw [toList_append]
    rfl

theorem render_no_newline (l : DLine) (h : '\n' ∉ (dlineText l).toList) :
    '\n' ∉ (renderDLine l).toList := by
  cases l with
  | ctx s =>
    show '\n' ∉ (" " ++ s).toList
    rw [toList_append]
    intro hmem
    rcases List.mem_append.1 hmem with h1 | h1
    · simp at h1
    · exact h h1
  | add s =>
    show '\n' ∉ ("+" ++ s).toList
    rw [toList_append]
    intro hmem
    rcases List.mem_append.1 hmem with h1 | h1
    · simp at h1
    · exact h h1
  | del s =>
    show '\n' ∉ ("-" ++ s).toList
    rw [toList_append]
    intro hmem
    rcases List.mem_append.1 hmem with h1 | h1
    · simp at h1
    · exact h h1

theorem hunkHeader_is_header (h : Hunk) :
    isHunkHeaderPiece ((hunkHeader h).toList) = true := by
  unfold hunkHeader
  rw [toList_append]
  rfl

theorem hunkHeader_no_newline (h : Hunk) : '\n' ∉ (hunkHeader h).toList := by
  unfold hunkHeader
  simp only [toList_append]
  intro hmem
  simp only [List.mem_append] at hmem
  rcases hmem with ((((((((h1 | h1) | h1) | h1) | h1) | h1) | h1) | h1) | h1) <;>
    first
      | exact (by decide : '\n' ∉ ("@@ -" : String).toList) h1
      | exact (by decide : '\n' ∉ ("," : String).toList) h1
      | exact (by decide : '\n' ∉ (" +" : String).toList) h1
      | exact (by decide : '\n' ∉ (" @@" : String).toList) h1
      | exact natToStr_no_newline _ h1

theorem takeWhile_cons_of_neg {p : α → Bool} {x : α} {l : List α}
    (h : p x = false) : (x :: l).takeWhile p = [] := by
  simp [List.takeWhile, h]

theorem dropWhile_cons_of_neg {p : α → Bool} {x : α} {l : List α}
    (h : p x = false) : (x :: l).dropWhile p = x :: l := by
  simp [List.dropWhile, h]

theorem parseHunkGroups_nil (fuel : Nat) : parseHunkGroups fuel [] = [] := by
  cases fuel <;> simp [parseHunkGroups]

theorem filterMap_classify_render (ls : List DLine) :
    ((ls.map renderDLine).map String.toList).filterMap classifyPiece = ls := by
  induction ls with
  | nil => simp
  | cons l ls ih =>
    simp only [List.map_cons, List.filterMap_cons, classify_render l]
    simpa [List.filterMap_map, Function.comp] using ih

theorem parseHunkGroups_skip_all :
    ∀ (junk : List (List Char)), (∀ p ∈ junk, isHunkHeaderPiece p = false) →
      ∀ (fuel : Nat) (ps : List (List Char)),
        parseHunkGroups (fuel + junk.length) (junk ++ ps) =
          parseHunkGroups fuel ps := by
  intro junk
  induction junk with
  | nil => intro _ fuel ps; simp
  | cons j js ih =>
    intro h fuel ps
    have hj : isHunkHeaderPiece j = false := h j (by simp)
    have hlen : fuel + (j :: js).length = (fuel + js.length) + 1 := by
      simp only [List.length_cons]
      omega
    rw [hlen]
    show parseHunkGroups ((fuel + js.length) + 1) (j :: (js ++ ps)) =
      parseHunkGroups fuel ps
    simp only [parseHunkGroups]
    rw [if_neg (by simp [hj])]
    exact ih (fun p hp => h p (by simp [hp])) fuel ps

theorem parseHunkGroups_render :
    ∀ (hs : List Hunk) (fuel : Nat),
      ((hs.flatMap renderHunk).map String.toList).length + 1 ≤ fuel →
      parseHunkGroups fuel
          ((hs.flatMap renderHunk).map String.toList ++ [[]]) =
        hs.map Hunk.lines := by
  intro hs
  induction hs with
  | nil =>
    intro fuel hfuel
    obtain ⟨f, rfl⟩ : ∃ f, fuel = f + 1 := ⟨fuel - 1, by omega⟩
    show parseHunkGroups (f + 1) ([] :: []) = []
    simp only [parseHunkGroups]
    rw [if_neg (by simp [isHunkHeaderPiece])]
    exact parseHunkGroups_nil f
  | cons h rest ih =>
    intro fuel hfuel
    obtain ⟨f, rfl⟩ : ∃ f, fuel = f + 1 := ⟨fuel - 1, by omega⟩
    have hgoal : ((h :: rest).flatMap renderHunk).map String.toList ++ [[]] =
        (hunkHeader h).toList ::
          ((h.lines.map renderDLine).map String.toList ++
            ((rest.flatMap renderHunk).map String.toList ++ [[]])) := by
      simp [renderHunk]
    rw [hgoal]
    simp only [parseHunkGroups]
    rw [if_pos (hunkHeader_is_header h)]
    have hlinesok : ∀ p ∈ (h.lines.map renderDLine).map String.toList,
        (fun q => !isHunkHeaderPiece q) p = true := by
      intro p hp
      rcases List.mem_map.1 hp with ⟨r, hr, hreq⟩
      rcases List.mem_map.1 hr with ⟨dl, _, hdl⟩
      rw [← hreq, ← hdl]
      show (!isHunkHeaderPiece ((renderDLine dl).toList)) = true
      rw [render_not_header dl]
      rfl
    rw [takeWhile_append_of_sat _ hlinesok, dropWhile_append_of_sat _ hlinesok]
    have hfuel2 : ((rest.flatMap renderHunk).map String.toList).length + 1 ≤ f := by
      have hflat : (((h :: rest).flatMap renderHunk).map String.toList).length =
          (renderHunk h).length +
            ((rest.flatMap renderHunk).map String.toList).length := by
        simp
      have hrh : (renderHunk h).length = h.lines.length + 1 := by
        simp [renderHunk]
      omega
    cases rest with
    | nil =>
      simp only [List.flatMap_nil, List.map_nil, List.nil_append]
      have ht : ([[]] : List (List Char)).takeWhile
          (fun q => !isHunkHeaderPiece q) = [[]] := by
        simp [isHunkHeaderPiece]
      have hd : ([[]] : List (List Char)).dropWhile
          (fun q => !isHunkHeaderPiece q) = [] := by
        simp [isHunkHeaderPiece]
      rw [ht, hd, parseHunkGroups_nil]
      rw [List.filterMap_append, filterMap_classify_render]
      simp [classifyPiece]
    | cons h2 rest2 =>
      have hhead2 : ((h2 :: rest2).flatMap renderHunk).map String.toList ++ [[]] =
          (hunkHeader h2).toList ::
            ((h2.lines.map renderDLine).map String.toList ++
              ((rest2.flatMap renderHunk).map String.toList ++ [[]])) := by
        simp [renderHunk]
      have hstop : (fun q => !isHunkHeaderPiece q) ((hunkHeader h2).toList)
          = false := by
        show (!isHunkHeaderPiece ((hunkHeader h2).toList)) = false
        rw [hunkHeader_is_header h2]
        rfl
      rw [hhead2, takeWhile_cons_of_neg (p := fun q => !isHunkHeaderPiece q)
          hstop,
        dropWhile_cons_of_neg (p := fun q => !isHunkHeaderPiece q) hstop,
        List.append_nil, filterMap_classify_render, ← hhead2]
      rw [ih f hfuel2]
      simp

/-! ## Claim C9: the rendered patch text and the structured hunks agree -/

/-- C9 fails as stated for arbitrary paths: a path containing a newline
followed by a fake `@@` header corrupts the rendered text, so the
changes recovered from it differ from the structured hunks. -/
theorem render_parse_counterexample :
    recoverChanges
        (createPatch "p\n@@ -1,1 +1,1 @@" "" "" "starter" "submission") ≠
      (structuredPatch "" "").map Hunk.lines := by
  decide

/-- C9 amended: for every pair of texts and every path and side labels
containing no newline character, the tagged lines recovered from the
rendered unified-diff text are exactly the structured hunks' tagged
lines, hunk for hunk — the two outputs describe the identical set of
added, removed and context lines. -/
theorem render_parse_agreement
    (path oldStr newStr oldHeader newHeader : String)
    (h1 : '\n' ∉ path.toList) (h2 : '\n' ∉ oldHeader.toList)
    (h3 : '\n' ∉ newHeader.toList) :
    recoverChanges (createPatch path oldStr newStr oldHeader newHeader) =
      (structuredPatch oldStr newStr).map Hunk.lines := by
  unfold recoverChanges createPatch
  rw [toList_mk]
  have hnolist : ∀ l ∈ (patchLines path oldHeader newHeader
      (structuredPatch oldStr newStr)).map String.toList, '\n' ∉ l := by
    intro l hl
    rcases List.mem_map.1 hl with ⟨t, ht, rfl⟩
    unfold patchLines at ht
    rcases List.mem_append.1 ht with h4 | h4
    · have h5 : t = "Index: " ++ path ∨
          t = patchSeparator ∨
          t = "--- " ++ path ++ "\t" ++ oldHeader ∨
          t = "+++ " ++ path ++ "\t" ++ newHeader := by
        simpa using h4
      rcases h5 with rfl | rfl | rfl | rfl
      · rw [toList_append]
        intro hm
        rcases List.mem_append.1 hm with h6 | h6
        · exact (by decide : '\n' ∉ ("Index: " : String).toList) h6
        · exact h1 h6
      · decide
      · rw [toList_append, toList_append, toList_append]
        intro hm
        rcases List.mem_append.1 hm with h6 | h6
        · rcases List.mem_append.1 h6 with h7 | h7
          · rcases List.mem_append.1 h7 with h8 | h8
            · exact (by decide : '\n' ∉ ("--- " : String).toList) h8
            · exact h1 h8
          · exact (by decide : '\n' ∉ ("\t" : String).toList) h7
        · exact h2 h6
      · rw [toList_append, toList_append, toList_append]
        intro hm
        rcases List.mem_append.1 hm with h6 | h6
        · rcases List.mem_append.1 h6 with h7 | h7
          · rcases List.mem_append.1 h7 with h8 | h8
            · exact (by decide : '\n' ∉ ("+++ " : String).toList) h8
            · exact h1 h8
          · exact (by decide : '\n' ∉ ("\t" : String).toList) h7
        · exact h3 h6
    · rcases List.mem_flatMap.1 h4 with ⟨hk, hhk, hmem2⟩
      unfold renderHunk at hmem2
      rcases List.mem_cons.1 hmem2 with rfl | hdl
      · exact hunkHeader_no_newline hk
      · rcases List.mem_map.1 hdl with ⟨dl, hdlmem, rfl⟩
        exact render_no_newline dl
          (structuredPatch_no_newline oldStr newStr hk hhk dl hdlmem)
  have hne : (patchLines path oldHeader newHeader
      (structuredPatch oldStr newStr)).map String.toList ≠ [] := by
    simp [patchLines]
  rw [splitCh_patch '\n' _ hne hnolist]
  have hshape : (patchLines path oldHeader newHeader
      (structuredPatch oldStr newStr)).map String.toList =
      [("Index: " ++ path).toList,
       (patchSeparator).toList,
       ("--- " ++ path ++ "\t" ++ oldHeader).toList,
       ("+++ " ++ path ++ "\t" ++ newHeader).toList] ++
        ((structuredPatch oldStr newStr).flatMap renderHunk).map
          String.toList := by
    simp [patchLines]
  rw [hshape, List.append_assoc]
  have hjunk : ∀ p ∈ [("Index: " ++ path).toList,
      (patchSeparator).toList,
      ("--- " ++ path ++ "\t" ++ oldHeader).toList,
      ("+++ " ++ path ++ "\t" ++ newHeader).toList],
      isHunkHeaderPiece p = false := by
    intro p hp
    have h5 : p = ("Index: " ++ path).toList ∨
        p = (patchSeparator).toList ∨
        p = ("--- " ++ path ++ "\t" ++ oldHeader).toList ∨
        p = ("+++ " ++ path ++ "\t" ++ newHeader).toList := by
      simpa using hp
    rcases h5 with rfl | rfl | rfl | rfl
    · rw [toList_append]; rfl
    · rfl
    · rw [toList_append, toList_append, toList_append]; rfl
    · rw [toList_append, toList_append, toList_append]; rfl
  have hswap : (([("Index: " ++ path).toList,
      (patchSeparator).toList,
      ("--- " ++ path ++ "\t" ++ oldHeader).toList,
      ("+++ " ++ path ++ "\t" ++ newHeader).toList] ++
        (((structuredPatch oldStr newStr).flatMap renderHunk).map
            String.toList ++ [[]])).length) + 1 =
      ((((structuredPatch oldStr newStr).flatMap renderHunk).map
          String.toList).length + 2) +
        ([("Index: " ++ path).toList,
          (patchSeparator).toList,
          ("--- " ++ path ++ "\t" ++ oldHeader).toList,
          ("+++ " ++ path ++ "\t" ++ newHeader).toList] :
            List (List Char)).length := by
    simp
  rw [hswap, parseHunkGroups_skip_all _ hjunk _ _]
  exact parseHunkGroups_render (structuredPatch oldStr newStr) _
    (by omega)

/-- Closed instance of `render_parse_agreement` at the one-line
modification scenario. -/
theorem render_parse_agreement_witness :
    recoverChanges (createPatch "a.py" "x=1\n" "x=2\n" "starter"
        "submission") =
      (structuredPatch "x=1\n" "x=2\n").map Hunk.lines :=
  render_parse_agreement "a.py" "x=1\n" "x=2\n" "starter" "submission"
    (by decide) (by decide) (by decide)
